import Mathlib

/-!
Shallow embedding of the wit version-control engine (src/wit.py, src/utilities.py)
and proofs about its specification claims.

Modelling conventions:
- Directory trees are finite labelled trees (`FsTree`); association order stands in
  for the (sorted) `os.listdir` order.  Byte content of a file is a `String`.
- Python functions that raise exceptions are embedded as functions returning
  `Except`; operations that mutate the filesystem thread an explicit `RepoState`
  and return the state reached together with the outcome, since a raised Python
  exception leaves all previously performed filesystem writes in place.
- Commit identifiers are opaque strings.  The random identifier drawn by
  `create_image_dir` is passed in as an explicit `freshId` argument.
- `filecmp` never reports `funny_files`/`errors` in this idealised error-free
  filesystem, so those lists are empty in the embedding, exactly as the code
  observes them on a healthy disk.
-/

namespace Wit

/-! ### Per-file three-way merge (`utilities.merge_common_changes`) -/

/-- Outcomes of `merge_common_changes` other than normal completion:
`conflict` is the `ValueError("Same row changed on both files. Aborting proccess.")`,
`indexErr` is the unhandled `IndexError` raised by `common_content[i]`,
`ioErr` stands for a `FileNotFoundError` from `open` on a missing input file. -/
inductive MergeErr where
  | conflict
  | indexErr
  | ioErr
deriving DecidableEq

/-- Helper for `splitlines`: walk the characters, accumulating the current line
(in reverse); a newline emits the accumulated line; the end of the string emits a
final line only when characters follow the last newline. -/
def splitlinesAux : List Char → List Char → List String
  | [], [] => []
  | [], acc => [String.mk acc.reverse]
  | ch :: rest, acc =>
    if ch = '\n' then String.mk acc.reverse :: splitlinesAux rest []
    else splitlinesAux rest (ch :: acc)

/-- Python `str.splitlines` restricted to `"\n"` separators: one entry per line,
with no trailing empty entry for a final newline (and `""` maps to `[]`). -/
def splitlines (s : String) : List String :=
  splitlinesAux s.data []

/-- The line-merging loop of `merge_common_changes` (utilities.py lines 331-354).
The Python loop walks index `i` while `i < len(branch) or i < len(head)`:
if one side has no line at `i` it appends the other side's line (so once a side is
exhausted the remaining lines of the other side are appended unchanged, which the
two base cases return directly); if both sides have a line it reads
`common_content[i]` (an unhandled `IndexError` when the ancestor is shorter),
raises the conflict `ValueError` when the ancestor line differs from both sides,
takes the branch line when the ancestor equals the head line but not the branch
line, and otherwise takes the head line. -/
def mergeLines : List String → List String → List String → Except MergeErr (List String)
  | _, [], headRest => .ok headRest
  | _, b :: bs, [] => .ok (b :: bs)
  | common, b :: bs, h :: hs =>
    match common with
    | [] => .error .indexErr
    | c :: cs =>
      if c ≠ h ∧ c ≠ b then .error .conflict
      else if c = h ∧ c ≠ b then (mergeLines cs bs hs).map (fun r => b :: r)
      else (mergeLines cs bs hs).map (fun r => h :: r)

/-- Modelled from the spec and claim wording (spec section 4.5), for comparison with
`mergeLines`: the line the specification says the merge selects at index `i` in the
non-conflicting cases — the other side's line when one side has no line at `i`, the
branch line when the ancestor's line equals the head line but differs from the
branch line, and otherwise the head line. -/
def specLine (common branch head : List String) (i : Nat) : String :=
  match branch[i]?, head[i]? with
  | none, some h => h
  | some b, none => b
  | some b, some h => if common[i]? = some h ∧ common[i]? ≠ some b then b else h
  | none, none => String.mk []

/-- A flat file store: full path to byte content.  `merge_common_changes` addresses
its four files by full path, so a flat map is the natural embedding here. -/
abbrev FileMap := List (String × String)

/-- Python `open(p).read()` on the flat store: `none` models `FileNotFoundError`. -/
def readFileM (fs : FileMap) (p : String) : Option String :=
  (fs.find? (fun q => q.1 == p)).map (·.2)

/-- Python `open(p, "w").write(c)`: overwrite in place or create the file. -/
def writeFileM (fs : FileMap) (p c : String) : FileMap :=
  if fs.any (fun q => q.1 == p) then
    fs.map (fun q => if q.1 == p then (p, c) else q)
  else fs ++ [(p, c)]

/-- `utilities.merge_common_changes` (lines 314-357): read the three input files,
run the merging loop, and only on normal completion write `"\n".join(merged)` to
`dst`.  A raised exception (conflict or index error) leaves the file store exactly
as it was, which the returned pair makes explicit. -/
def mergeCommonChanges (fs : FileMap) (commonFile branchFile headFile dst : String) :
    FileMap × Except MergeErr Unit :=
  match readFileM fs commonFile, readFileM fs branchFile, readFileM fs headFile with
  | some cc, some bc, some hc =>
    match mergeLines (splitlines cc) (splitlines bc) (splitlines hc) with
    | .error e => (fs, .error e)
    | .ok merged => (writeFileM fs dst (String.intercalate "\n" merged), .ok ())
  | _, _, _ => (fs, .error .ioErr)

/-! ### Commit-graph traversal (`utilities.get_all_commits_util`) and the
merge-base search inside `wit.merge` -/

/-- `utilities.get_all_commits_util` (lines 289-301): append the current commit,
then recurse into each parent in order (the Python code special-cases a single
parent, but `for parent in parents` over a one-element list is the same walk).
The Python recursion has no cycle protection, so the embedding spends one unit of
`fuel` per recursion level and returns `none` when the fuel runs out;
on an acyclic graph enough fuel always exists (proved below). -/
def collectHistoryF (parents : String → List String) : Nat → String → Option (List String)
  | 0, _ => none
  | fuel + 1, c =>
    ((parents c).mapM' (fun p => collectHistoryF parents fuel p)).map
      (fun ls => c :: ls.flatten)

/-- The merge-base scan of `wit.merge` (lines 405-408): fold over the source
history, overwriting the accumulator at every identifier that occurs in the head
history; there is no `break`, so the final value is the last match. -/
def findCommonCommit (srcCommits headCommits : List String) : Option String :=
  srcCommits.foldl (fun acc cid => if cid ∈ headCommits then some cid else acc) none

/-- The whole merge-base search of `wit.merge` (lines 397-411): collect both
histories, then scan the source history.  `none` models the non-terminating
(fuel-exhausted) traversal; the inner `Option` is `common_commit`. -/
def mergeBaseSearch (parents : String → List String) (fuel : Nat) (srcId headId : String) :
    Option (Option String) :=
  match collectHistoryF parents fuel srcId, collectHistoryF parents fuel headId with
  | some srcC, some headC => some (findCommonCommit srcC headC)
  | _, _ => none

/-- Modelled from the spec wording (section 4.5), for comparison with
`findCommonCommit`: "scans the source history in traversal order and returns the
first identifier that also appears anywhere in the head history". -/
def specFirstCommon (srcCommits headCommits : List String) : Option String :=
  srcCommits.find? (fun cid => headCommits.contains cid)

/-- Acyclicity of the parent graph, witnessed by a rank that strictly drops along
every parent edge (commits only ever point to previously created commits). -/
def AcyclicRank (parents : String → List String) (rank : String → Nat) : Prop :=
  ∀ c p, p ∈ parents c → rank p < rank c

/-! ### Directory trees and the `filecmp`-based helpers -/

mutual
/-- One directory entry: a file with byte content, or a subdirectory. -/
inductive FsEntry where
  | file : String → FsEntry
  | dir : FsTree → FsEntry

/-- A directory: a finite list of named entries, in `os.listdir` order. -/
inductive FsTree where
  | nil : FsTree
  | cons : String → FsEntry → FsTree → FsTree
end

/-- Entry names of a directory, in listing order. -/
def namesT : FsTree → List String
  | .nil => []
  | .cons n _ rest => n :: namesT rest

/-- Look an entry up by name (first occurrence, as on a real filesystem where
names are unique). -/
def lookupT : FsTree → String → Option FsEntry
  | .nil, _ => none
  | .cons m e rest, n => if m = n then some e else lookupT rest n

/-- Overwrite the named entry in place, or append it (the effect of `copy2` /
`copy_tree` writing into a directory). -/
def upsertT : FsTree → String → FsEntry → FsTree
  | .nil, n, e => .cons n e .nil
  | .cons m e0 rest, n, e =>
    if m = n then .cons m e rest else .cons m e0 (upsertT rest n e)

/-- Real directories never list the same name twice; several lemmas assume it. -/
def nodupT : FsTree → Bool
  | .nil => true
  | .cons n (FsEntry.file _) rest => !((namesT rest).contains n) && nodupT rest
  | .cons n (FsEntry.dir cs) rest => !((namesT rest).contains n) && nodupT cs && nodupT rest

/-- Names of `t1` with no entry of any kind in `t2`: `dircmp.left_only` of
`(t1, t2)`, and `dircmp.right_only` of `(t2, t1)`. -/
def leftOnlyNames (t1 t2 : FsTree) : List String :=
  (namesT t1).filter (fun n => (lookupT t2 n).isNone)

/-- Names that are files in both trees whose contents differ: the `mismatch`
list of `filecmp.cmpfiles(dir1, dir2, common_files, shallow=False)`. -/
def mismatchNames : FsTree → FsTree → List String
  | .nil, _ => []
  | .cons n (FsEntry.file c) rest, t2 =>
    (match lookupT t2 n with
     | some (FsEntry.file c2) => if c ≠ c2 then [n] else []
     | _ => []) ++ mismatchNames rest t2
  | .cons _ (FsEntry.dir _) rest, t2 => mismatchNames rest t2

/-- The non-recursive checks of `utilities.are_dir_trees_equal` (lines 79-89):
`left_only`, `right_only` and the content `mismatch` list must all be empty
(`funny_files` and `errors` are empty on an error-free filesystem).  Note the
code never looks at `common_funny`, so a file/directory type clash at a common
name is invisible to it; this embedding keeps that behaviour. -/
def baseEq (t1 t2 : FsTree) : Bool :=
  (leftOnlyNames t1 t2).isEmpty && (leftOnlyNames t2 t1).isEmpty &&
    (mismatchNames t1 t2).isEmpty

/-- The recursive loop of `are_dir_trees_equal` (lines 90-94): for every common
subdirectory name, require the full recursive comparison (its base checks plus its
own loop, inlined here to keep the recursion structural) to succeed. -/
def subdirsEqual : FsTree → FsTree → Bool
  | .nil, _ => true
  | .cons _ (FsEntry.file _) rest, t2 => subdirsEqual rest t2
  | .cons n (FsEntry.dir cs) rest, t2 =>
    (match lookupT t2 n with
     | some (FsEntry.dir cs2) => baseEq cs cs2 && subdirsEqual cs cs2
     | _ => true) && subdirsEqual rest t2

/-- `utilities.are_dir_trees_equal` (lines 67-95). -/
def areDirTreesEqual (t1 t2 : FsTree) : Bool :=
  baseEq t1 t2 && subdirsEqual t1 t2

/-- `os.path.join` for the absolute path strings the code builds. -/
def pjoin (a b : String) : String := a ++ "/" ++ b

/-- The entries `get_dirs_diffs` appends for one directory level before recursing
(utilities.py lines 153-159): in content mode the mismatching common files, in
presence mode `right_only`, each joined under the `dir2` path. -/
def diffBase (t1 t2 : FsTree) (dir2 : String) (byContent : Bool) : List String :=
  if byContent then (mismatchNames t1 t2).map (fun n => pjoin dir2 n)
  else (leftOnlyNames t2 t1).map (fun n => pjoin dir2 n)

/-- The recursion of `get_dirs_diffs` over common subdirectories
(utilities.py lines 160-168), inlining the callee's level (its `diffBase`
followed by its own recursion) to keep the recursion structural. -/
def subDiffs : FsTree → FsTree → String → Bool → List String
  | .nil, _, _, _ => []
  | .cons _ (FsEntry.file _) rest, t2, d2, bc => subDiffs rest t2 d2 bc
  | .cons n (FsEntry.dir cs) rest, t2, d2, bc =>
    (match lookupT t2 n with
     | some (FsEntry.dir cs2) =>
       diffBase cs cs2 (pjoin d2 n) bc ++ subDiffs cs cs2 (pjoin d2 n) bc
     | _ => []) ++ subDiffs rest t2 d2 bc

/-- `utilities.get_dirs_diffs` (lines 141-168), with the output list returned
instead of mutated in place; `dir2` is the path under which reported names are
joined, exactly as the Python code joins them under its second argument. -/
def getDirsDiffs (t1 t2 : FsTree) (dir2 : String) (byContent : Bool) : List String :=
  diffBase t1 t2 dir2 byContent ++ subDiffs t1 t2 dir2 byContent

/-- Whether the subtree holds a file (at any depth) whose entry name is not in the
ignore list — exactly the condition under which `execute_checkout` would attempt a
`copy2` below this point. -/
def hasUnignoredFile : FsTree → List String → Bool
  | .nil, _ => false
  | .cons n (FsEntry.file _) rest, ig =>
    (if n ∈ ig then false else true) || hasUnignoredFile rest ig
  | .cons _ (FsEntry.dir cs) rest, ig => hasUnignoredFile cs ig || hasUnignoredFile rest ig

/-- `utilities.execute_checkout` (lines 238-257): walk the source tree in listing
order; recurse into directories (regardless of the ignore list); copy each file
whose bare name (`item`) is not in `ignore` onto the destination with `copy2`.
`copy2` onto an existing directory raises, and a copy below a destination
directory that does not exist raises `FileNotFoundError` at the first non-ignored
file (`copy2` never creates parent directories), modelled by the
`hasUnignoredFile` test; with no file to copy the missing directory is silently
skipped, exactly as in Python where no `copy2` ever runs there. -/
def executeCheckout : FsTree → FsTree → List String → Except String FsTree
  | .nil, dst, _ => .ok dst
  | .cons n (FsEntry.file c) rest, dst, ig =>
    if n ∈ ig then executeCheckout rest dst ig
    else
      match lookupT dst n with
      | some (FsEntry.dir _) => .error "IsADirectoryError"
      | _ => executeCheckout rest (upsertT dst n (FsEntry.file c)) ig
  | .cons n (FsEntry.dir cs) rest, dst, ig =>
    match lookupT dst n with
    | some (FsEntry.dir ds) =>
      match executeCheckout cs ds ig with
      | .error e => .error e
      | .ok ds2 => executeCheckout rest (upsertT dst n (FsEntry.dir ds2)) ig
    | _ =>
      if hasUnignoredFile cs ig then .error "FileNotFoundError"
      else executeCheckout rest dst ig

/-! ### Repository state and the commands built on it -/

/-- The on-disk repository as the commands observe it: the project home directory
path, the snapshot store `.wit/images` (commit id to tree), the per-commit parent
lists from the metadata records (date and message are never read back by the
modelled operations), the `references.txt` lines as ordered name/id pairs
(`none` when the file does not exist yet), the staging area, the working tree
(the home directory's tracked content), and `activated.txt`. -/
structure RepoState where
  homeDir : String
  images : List (String × FsTree)
  metas : List (String × List String)
  refs : Option (List (String × String))
  staging : FsTree
  working : FsTree
  activated : String

/-- The staging-area path `home/.wit/staging_area` used as a `dir2` join base. -/
def stagingPath (s : RepoState) : String :=
  pjoin (pjoin s.homeDir ".wit") "staging_area"

/-- Look a commit snapshot up in the image store. -/
def lookupImage (imgs : List (String × FsTree)) (cid : String) : Option FsTree :=
  (imgs.find? (fun p => p.1 == cid)).map (·.2)

/-- `utilities.get_head_commit_id`: the value of line 0 of `references.txt`
(whatever its name); `none` models the `IndexError` on an empty file. -/
def headCommitId (refs : List (String × String)) : Option String :=
  refs.head?.map (·.2)

/-- `utilities.get_branches`: every line after line 0, as a name-to-id map. -/
def getBranches (refs : List (String × String)) : List (String × String) :=
  refs.drop 1

/-- Dictionary lookup on parsed reference lines. -/
def lookupStr (l : List (String × String)) (k : String) : Option String :=
  (l.find? (fun p => p.1 == k)).map (·.2)

/-- Python dict assignment `params[k] = v` on lines parsed in order: overwrite the
existing key in place, otherwise append the new binding at the end. -/
def dictSet (l : List (String × String)) (k v : String) : List (String × String) :=
  if l.any (fun p => p.1 == k) then l.map (fun p => if p.1 == k then (k, v) else p)
  else l ++ [(k, v)]

/-- `utilities.update_references` (lines 213-235): parse all lines into a dict,
set `HEAD`, advance `branch` only if it is already a key, and write the entries
back in order. -/
def updateReferences (refs : List (String × String)) (cid : String) (branch : String) :
    List (String × String) :=
  let p1 := dictSet refs "HEAD" cid
  if p1.any (fun q => q.1 == branch) then dictSet p1 branch cid else p1

/-- `wit.commit` (lines 83-133).  With a references file present, compare the HEAD
snapshot against the staging area and abort (`.ok none`, the Python `return None`
after "No changes made since the last commit") when they are equal; otherwise
create the image directory under the supplied fresh identifier (a collision with
an existing identifier would make `os.mkdir` raise, so callers pass a fresh one),
record the metadata parents (`HEAD`, plus the optional second parent; the sentinel
`None` when no references file exists), copy the staging area into the new image,
and update the references (creating `HEAD=<id>` and `master=<id>` on the first
commit).  A missing head snapshot directory would make `filecmp` raise, modelled
as `.error`. -/
def commitOp (s : RepoState) (freshId message : String) (secondParent : Option String) :
    RepoState × Except String (Option String) :=
  match s.refs with
  | some refs =>
    match headCommitId refs with
    | none => (s, .error "IndexError")
    | some hid =>
      match lookupImage s.images hid with
      | none => (s, .error "FileNotFoundError")
      | some headTree =>
        if areDirTreesEqual headTree s.staging then (s, .ok none)
        else
          ({ s with
              images := s.images ++ [(freshId, s.staging)],
              metas := s.metas ++
                [(freshId, match secondParent with
                  | none => [hid]
                  | some p2 => [hid, p2])],
              refs := some (updateReferences refs freshId s.activated) },
            .ok (some freshId))
  | none =>
    ({ s with
        images := s.images ++ [(freshId, s.staging)],
        metas := s.metas ++ [(freshId, [])],
        refs := some [("HEAD", freshId), ("master", freshId)] },
      .ok (some freshId))

/-- `wit.status` (lines 238-278) with `checkout=True`, the variant whose computed
triple the other operations consume: `none` when no references file exists (the
"No commit was found." report) and otherwise the three
`get_dirs_diffs` results in order — changes to commit
(`get_dirs_diffs(commit_dir, staging_dir, ...)`), changes not staged
(`get_dirs_diffs(staging_dir, home_dir, ..., by_content=True)`), and untracked
files (`get_dirs_diffs(staging_dir, home_dir, ...)`).  A missing head snapshot
directory would make `dircmp` raise, also modelled as `none`. -/
def statusOp (s : RepoState) : Option (List String × List String × List String) :=
  match s.refs with
  | none => none
  | some refs =>
    match headCommitId refs with
    | none => none
    | some hid =>
      match lookupImage s.images hid with
      | none => none
      | some headTree =>
        some (getDirsDiffs headTree s.staging (stagingPath s) false,
              getDirsDiffs s.staging s.working s.homeDir true,
              getDirsDiffs s.staging s.working s.homeDir false)

/-- `wit.checkout` (lines 164-235): compute the status triple and abort when it is
unavailable or when `changes_to_commit`/`changes_not_staged` are non-empty;
resolve the parameter through the branch map or treat it as a raw identifier;
copy the commit snapshot onto the home directory with `ignore=untracked_files`,
then onto the staging area; finally, for a branch parameter, update the
references and the activated-branch file.  For a raw identifier the code calls
`get_activated_branch(references_path)`, which opens
`<references.txt>/.wit/activated.txt` — a path that cannot exist — so that arm
always raises after the copies have already mutated the working tree and staging
area, which the returned state records. -/
def checkoutOp (s : RepoState) (param : String) : RepoState × Except String Unit :=
  match statusOp s with
  | none => (s, .error "status unavailable")
  | some (changesToCommit, changesNotStaged, untrackedFiles) =>
    if changesToCommit.length > 0 ∨ changesNotStaged.length > 0 then
      (s, .error "uncommitted changes")
    else
      match s.refs with
      | none => (s, .error "no references file")
      | some refs =>
        let resolved := lookupStr (getBranches refs) param
        let commitId := resolved.getD param
        match lookupImage s.images commitId with
        | none => (s, .error "FileNotFoundError")
        | some commitTree =>
          match executeCheckout commitTree s.working untrackedFiles with
          | .error e => (s, .error e)
          | .ok working2 =>
            match executeCheckout commitTree s.staging [] with
            | .error e => ({ s with working := working2 }, .error e)
            | .ok staging2 =>
              match resolved with
              | some _ =>
                ({ s with
                    working := working2,
                    staging := staging2,
                    refs := some (updateReferences refs commitId param),
                    activated := param }, .ok ())
              | none =>
                ({ s with working := working2, staging := staging2 },
                  .error "FileNotFoundError in get_activated_branch")

/-- `wit.branch` (lines 340-373): fail when no references file exists; read the
head identifier from line 0; abort (leaving the file untouched) when `name`
matches the name of any existing line (`HEAD` included); otherwise append
`name=<head id>` at the end of the file. -/
def branchOp (s : RepoState) (name : String) : RepoState × Except String Unit :=
  match s.refs with
  | none => (s, .error "no references file")
  | some refs =>
    match refs.head? with
    | none => (s, .error "IndexError")
    | some first =>
      if name ∈ refs.map (fun p => p.1) then (s, .error "branch name already in use")
      else ({ s with refs := some (refs ++ [(name, first.2)]) }, .ok ())

/-! ### Concrete repositories used by witnesses and counterexamples -/

/-- Parent map of a diamond history: `m` merges `a` and `b`, which both descend
from the root `r`. -/
def diamondParents : String → List String := fun c =>
  if c = "m" then ["a", "b"]
  else if c = "a" then ["r"]
  else if c = "b" then ["r"]
  else []

/-- A rank witnessing that the diamond history is acyclic. -/
def diamondRank : String → Nat := fun c =>
  if c = "m" then 2
  else if c = "a" then 1
  else if c = "b" then 1
  else 0

/-- Parent map of a three-commit chain `s → c → r`, used to refute the
first-match reading of the merge-base scan. -/
def chainParents : String → List String := fun x =>
  if x = "s" then ["c"]
  else if x = "c" then ["r"]
  else []

/-- A one-file tree: `a.txt` with content `x`. -/
def treeA : FsTree := .cons "a.txt" (FsEntry.file "x") .nil

/-- `a.txt` with changed content `y`. -/
def treeA2 : FsTree := .cons "a.txt" (FsEntry.file "y") .nil

/-- The target commit snapshot for the checkout counterexample: the tracked
`a.txt` plus a committed version of `foo.txt`. -/
def treeTarget : FsTree :=
  .cons "a.txt" (FsEntry.file "x") (.cons "foo.txt" (FsEntry.file "committed") .nil)

/-- The working tree before checkout: clean `a.txt` plus an untracked `foo.txt`. -/
def treeWorking : FsTree :=
  .cons "a.txt" (FsEntry.file "x") (.cons "foo.txt" (FsEntry.file "untracked") .nil)

/-- Repository about to check out branch `feature`: HEAD is `c1` (snapshot
`treeA`, staged clean), `feature` points at `c2` (snapshot `treeTarget`), and the
working tree holds the untracked `foo.txt`. -/
def c2State : RepoState :=
  { homeDir := "/p",
    images := [("c1", treeA), ("c2", treeTarget)],
    metas := [("c1", []), ("c2", ["c1"])],
    refs := some [("HEAD", "c1"), ("master", "c1"), ("feature", "c2")],
    staging := treeA,
    working := treeWorking,
    activated := "master" }

/-- A clean one-commit repository whose staging area equals the HEAD snapshot. -/
def cleanState : RepoState :=
  { homeDir := "/p",
    images := [("c1", treeA)],
    metas := [("c1", [])],
    refs := some [("HEAD", "c1"), ("master", "c1")],
    staging := treeA,
    working := treeA,
    activated := "master" }

/-- The same repository with an edited `a.txt` staged, ready to commit. -/
def dirtyState : RepoState :=
  { cleanState with staging := treeA2, working := treeA2 }

/-- A freshly initialised repository: no references file, empty stores. -/
def initState : RepoState :=
  { homeDir := "/p", images := [], metas := [], refs := none,
    staging := .nil, working := .nil, activated := "master" }

/-- The state `commitOp dirtyState "g1" "m1" none` reaches: the new snapshot is
stored under `g1`, its metadata records parent `c1`, and `HEAD` and `master` both
advance to `g1`. -/
def dirtyCommittedState : RepoState :=
  { homeDir := "/p",
    images := [("c1", treeA), ("g1", treeA2)],
    metas := [("c1", []), ("g1", ["c1"])],
    refs := some [("HEAD", "g1"), ("master", "g1")],
    staging := treeA2,
    working := treeA2,
    activated := "master" }

end Wit

namespace Wit

/-! ### Helper lemmas about the three-way line merge -/

/-- If some in-range index holds an ancestor line differing from both sides, the
merging loop raises the conflict `ValueError` (possibly at an earlier such index,
but always a conflict: every earlier index is in range for all three lists). -/
theorem mergeLines_conflict : (common branch head : List String) → (i : Nat) →
    i < common.length → i < branch.length → i < head.length →
    common[i]? ≠ head[i]? → common[i]? ≠ branch[i]? →
    mergeLines common branch head = .error .conflict
  | [], _, _, i, h1, _, _, _, _ => by simp at h1
  | _ :: _, [], _, i, _, h2, _, _, _ => by simp at h2
  | _ :: _, _ :: _, [], i, _, _, h3, _, _ => by simp at h3
  | c :: cs, b :: bs, h :: hs, 0, _, _, _, hch, hcb => by
    simp only [List.getElem?_cons_zero, ne_eq, Option.some.injEq] at hch hcb
    simp [mergeLines, hch, hcb]
  | c :: cs, b :: bs, h :: hs, i + 1, h1, h2, h3, hch, hcb => by
    have ih := mergeLines_conflict cs bs hs i (by simpa using h1) (by simpa using h2)
      (by simpa using h3) (by simpa using hch) (by simpa using hcb)
    by_cases hc : c ≠ h ∧ c ≠ b
    · simp [mergeLines, hc]
    · simp only [mergeLines, ih]
      split
      · rfl
      · split <;> rfl

/-- `specLine` looks one step deeper when all three lists are peeled. -/
theorem specLine_succ (c b h : String) (cs bs hs : List String) (i : Nat) :
    specLine (c :: cs) (b :: bs) (h :: hs) (i + 1) = specLine cs bs hs i := by
  simp [specLine]

/-- When the ancestor covers every index where both sides have lines and no index
conflicts, the merging loop completes and produces exactly the line the spec
describes at every position. -/
theorem mergeLines_ok : (common branch head : List String) →
    min branch.length head.length ≤ common.length →
    (∀ i, i < branch.length → i < head.length →
      common[i]? = head[i]? ∨ common[i]? = branch[i]?) →
    ∃ out, mergeLines common branch head = .ok out ∧
      out.length = max branch.length head.length ∧
      ∀ i, i < max branch.length head.length → out[i]? = some (specLine common branch head i)
  | common, [], headRest, _, _ => by
    refine ⟨headRest, by simp [mergeLines], by simp, ?_⟩
    intro i hi
    have hi2 : i < headRest.length := by simpa using hi
    have hsome : headRest[i]? = some headRest[i] := List.getElem?_eq_getElem hi2
    simp [specLine, hsome]
  | common, b :: bs, [], _, _ => by
    refine ⟨b :: bs, by simp [mergeLines], by simp, ?_⟩
    intro i hi
    have hi2 : i < (b :: bs).length := by simpa using hi
    have hsome : (b :: bs)[i]? = some (b :: bs)[i] := List.getElem?_eq_getElem hi2
    simp [specLine, hsome]
  | [], b :: bs, h :: hs, hlen, _ => by
    simp [Nat.succ_min_succ] at hlen
  | c :: cs, b :: bs, h :: hs, hlen, hnc => by
    have hlen2 : min bs.length hs.length ≤ cs.length := by
      simpa [Nat.succ_min_succ] using hlen
    have hnc2 : ∀ i, i < bs.length → i < hs.length →
        cs[i]? = hs[i]? ∨ cs[i]? = bs[i]? := by
      intro i hb hh
      simpa using hnc (i + 1) (by simp only [List.length_cons]; omega)
        (by simp only [List.length_cons]; omega)
    obtain ⟨out, hout, hlenout, hidx⟩ := mergeLines_ok cs bs hs hlen2 hnc2
    have hnc0 : c = h ∨ c = b := by
      simpa using hnc 0 (by simp) (by simp)
    have hnoconf : ¬(c ≠ h ∧ c ≠ b) := by tauto
    by_cases htb : c = h ∧ c ≠ b
    · obtain ⟨hch, hcb⟩ := htb
      subst hch
      refine ⟨b :: out, ?_, ?_, ?_⟩
      · simp [mergeLines, hcb, hout, Except.map]
      · simp [hlenout, Nat.succ_max_succ]
      · intro i hi
        match i with
        | 0 => simp [specLine, hcb]
        | j + 1 =>
          rw [specLine_succ]
          simpa using hidx j (by simp [Nat.succ_max_succ] at hi; omega)
    · refine ⟨h :: out, ?_, ?_, ?_⟩
      · simp only [mergeLines]
        rw [if_neg hnoconf, if_neg htb, hout]
        simp [Except.map]
      · simp [hlenout, Nat.succ_max_succ]
      · intro i hi
        match i with
        | 0 => simp [specLine, htb]
        | j + 1 =>
          rw [specLine_succ]
          simpa using hidx j (by simp [Nat.succ_max_succ] at hi; omega)

/-! ### Helper lemmas about the history walk and the merge-base scan -/

/-- `mapM'` over `Option` succeeds when every element does. -/
theorem mapM_option_some {α β : Type} (f : α → Option β) :
    (l : List α) → (∀ x ∈ l, ∃ y, f x = some y) → ∃ rs, l.mapM' f = some rs
  | [], _ => ⟨[], rfl⟩
  | x :: xs, h => by
    obtain ⟨y, hy⟩ := h x (by simp)
    obtain ⟨rs, hrs⟩ := mapM_option_some f xs (fun z hz => h z (by simp [hz]))
    exact ⟨y :: rs, by simp [List.mapM'_cons, hy, hrs]⟩

/-- On a ranked acyclic graph, any fuel above the start commit's rank lets the
history walk complete. -/
theorem collectHistory_total (parents : String → List String) (rank : String → Nat)
    (hA : AcyclicRank parents rank) :
    ∀ fuel c, rank c < fuel → ∃ l, collectHistoryF parents fuel c = some l := by
  intro fuel
  induction fuel with
  | zero => intro c hc; omega
  | succ n ih =>
    intro c _
    have hp : ∀ p ∈ parents c, ∃ l, collectHistoryF parents n p = some l := by
      intro p hp
      exact ih p (by have := hA c p hp; omega)
    obtain ⟨rs, hrs⟩ := mapM_option_some (collectHistoryF parents n) (parents c) hp
    exact ⟨c :: rs.flatten, by simp [collectHistoryF, hrs]⟩

/-- The accumulator-overwriting fold keeps the value of the last matching element:
it equals a first-match search on the reversed list. -/
theorem foldl_scan_last (hs : List String) :
    (l : List String) → (a : Option String) →
      l.foldl (fun acc cid => if cid ∈ hs then some cid else acc) a
        = (l.reverse.find? (fun cid => hs.contains cid)).or a
  | [], a => by simp
  | x :: xs, a => by
    rw [List.foldl_cons, foldl_scan_last hs xs]
    simp only [List.reverse_cons, List.find?_append]
    cases hfind : xs.reverse.find? (fun cid => hs.contains cid) with
    | some y => simp [Option.or]
    | none =>
      by_cases hx : x ∈ hs
      · simp [List.find?, hx, Option.or]
      · simp [List.find?, hx, Option.or]

/-- The merge-base scan returns the last identifier of the source history that
occurs in the head history. -/
theorem findCommonCommit_eq_last (srcC headC : List String) :
    findCommonCommit srcC headC
      = srcC.reverse.find? (fun cid => headC.contains cid) := by
  rw [findCommonCommit, foldl_scan_last]
  cases srcC.reverse.find? (fun cid => headC.contains cid) <;> simp [Option.or]

/-- The diamond history is acyclic under `diamondRank`. -/
theorem diamondParents_acyclic : AcyclicRank diamondParents diamondRank := by
  intro c p hp
  by_cases h1 : c = "m"
  · subst h1
    simp [diamondParents] at hp
    rcases hp with rfl | rfl <;> decide
  · by_cases h2 : c = "a"
    · subst h2
      simp [diamondParents] at hp
      subst hp; decide
    · by_cases h3 : c = "b"
      · subst h3
        simp [diamondParents] at hp
        subst hp; decide
      · simp [diamondParents, h1, h2, h3] at hp

/-! ### Helper lemmas about the reference store and the stores -/

/-- `dictSet` on a parsed reference file keeps the first line in place, updating
it exactly when its name is the assigned key. -/
theorem dictSet_head (rest : List (String × String)) (k v : String) (q : String × String) :
    (dictSet (q :: rest) k v).head? = some (if q.1 == k then (k, v) else q) := by
  rw [dictSet]
  by_cases hany : ((q :: rest).any (fun p => p.1 == k)) = true
  · rw [if_pos hany]
    simp
  · rw [if_neg hany]
    have hq : (q.1 == k) = false := by
      cases hb : q.1 == k
      · rfl
      · exact absurd (by simp [List.any_cons, hb]) hany
    simp [hq]

/-- After `update_references` on a file whose first line is `HEAD=...`, line 0
carries the new commit identifier. -/
theorem headCommitId_updateReferences (hid : String) (rest : List (String × String))
    (cid branch : String) :
    headCommitId (updateReferences (("HEAD", hid) :: rest) cid branch) = some cid := by
  simp only [updateReferences]
  have h1 : (dictSet (("HEAD", hid) :: rest) "HEAD" cid).head? = some ("HEAD", cid) := by
    have h0 := dictSet_head rest "HEAD" cid ("HEAD", hid)
    simpa using h0
  by_cases h2 : (dictSet (("HEAD", hid) :: rest) "HEAD" cid).any (fun q => q.1 == branch)
  · rw [if_pos h2]
    obtain ⟨p1tl, hp1⟩ : ∃ tl, dictSet (("HEAD", hid) :: rest) "HEAD" cid
        = ("HEAD", cid) :: tl := by
      cases hd : dictSet (("HEAD", hid) :: rest) "HEAD" cid with
      | nil => rw [hd] at h1; simp at h1
      | cons x tl =>
        rw [hd] at h1
        simp only [List.head?_cons, Option.some.injEq] at h1
        exact ⟨tl, by rw [h1]⟩
    rw [hp1]
    have h4 := dictSet_head p1tl branch cid ("HEAD", cid)
    rw [headCommitId, h4]
    by_cases h3 : (("HEAD", cid).1 == branch) = true <;> simp [h3]
  · rw [if_neg h2]
    rw [headCommitId, h1]
    rfl

/-- Looking up a freshly appended image finds its snapshot. -/
theorem lookupImage_append_fresh (imgs : List (String × FsTree)) (cid : String) (t : FsTree)
    (h : cid ∉ imgs.map (fun p => p.1)) :
    lookupImage (imgs ++ [(cid, t)]) cid = some t := by
  induction imgs with
  | nil => simp [lookupImage, List.find?]
  | cons q qs ih =>
    have hne : (q.1 == cid) = false := by
      simp only [List.map_cons, List.mem_cons] at h
      simp only [beq_eq_false_iff_ne, ne_eq]
      exact fun hcontra => h (Or.inl hcontra.symm)
    have h2 : cid ∉ qs.map (fun p => p.1) := by
      simp only [List.map_cons, List.mem_cons] at h
      exact fun hc => h (Or.inr hc)
    simp only [lookupImage, List.cons_append, List.find?, hne] at ih ⊢
    exact ih h2

end Wit

namespace Wit

/-! ### Helper lemmas about directory-tree comparison -/

theorem lookupT_isSome_of_mem : (t : FsTree) → (n : String) → n ∈ namesT t →
    (lookupT t n).isSome = true
  | .nil, n, hn => by simp [namesT] at hn
  | .cons m e rest, n, hn => by
    by_cases h : m = n
    · simp [lookupT, h]
    · have h2 : n ∈ namesT rest := by
        simp only [namesT, List.mem_cons] at hn
        tauto
      simp only [lookupT, if_neg h]
      exact lookupT_isSome_of_mem rest n h2

theorem leftOnlyNames_nil (t1 t2 : FsTree)
    (h : ∀ n, n ∈ namesT t1 → (lookupT t2 n).isSome = true) :
    leftOnlyNames t1 t2 = [] := by
  rw [leftOnlyNames, List.filter_eq_nil_iff]
  intro n hn
  have h2 := h n hn
  cases hx : lookupT t2 n with
  | none => rw [hx] at h2; simp at h2
  | some e => simp [hx]

theorem nodupT_cons_notin {n : String} {e : FsEntry} {rest : FsTree}
    (h : nodupT (.cons n e rest) = true) : n ∉ namesT rest := by
  cases e with
  | file c => simp [nodupT] at h; exact h.1
  | dir cs => simp [nodupT] at h; exact h.1.1

theorem nodupT_cons_rest {n : String} {e : FsEntry} {rest : FsTree}
    (h : nodupT (.cons n e rest) = true) : nodupT rest = true := by
  cases e with
  | file c => simp [nodupT] at h; exact h.2
  | dir cs => simp [nodupT] at h; exact h.2

theorem nodupT_dir_children {n : String} {cs rest : FsTree}
    (h : nodupT (.cons n (FsEntry.dir cs) rest) = true) : nodupT cs = true := by
  simp [nodupT] at h
  exact h.1.2

theorem agree_tail {n : String} {e : FsEntry} {rest full : FsTree}
    (hagree : ∀ m, m ∈ namesT (FsTree.cons n e rest) →
      lookupT full m = lookupT (FsTree.cons n e rest) m)
    (hnotin : n ∉ namesT rest) :
    ∀ m, m ∈ namesT rest → lookupT full m = lookupT rest m := by
  intro m hm
  have hmn : n ≠ m := fun hc => hnotin (hc ▸ hm)
  have h2 := hagree m (by simp only [namesT, List.mem_cons]; right; exact hm)
  rwa [lookupT, if_neg hmn] at h2

theorem mismatchNames_agree : (t full : FsTree) →
    (∀ m, m ∈ namesT t → lookupT full m = lookupT t m) → nodupT t = true →
    mismatchNames t full = []
  | .nil, _, _, _ => rfl
  | .cons n (FsEntry.file c) rest, full, hagree, hnd => by
    have h1 : lookupT full n = some (FsEntry.file c) := by
      rw [hagree n (by simp [namesT])]
      simp [lookupT]
    simp only [mismatchNames, h1]
    rw [if_neg (by simp)]
    simp only [List.nil_append]
    exact mismatchNames_agree rest full (agree_tail hagree (nodupT_cons_notin hnd))
      (nodupT_cons_rest hnd)
  | .cons n (FsEntry.dir cs) rest, full, hagree, hnd => by
    simp only [mismatchNames]
    exact mismatchNames_agree rest full (agree_tail hagree (nodupT_cons_notin hnd))
      (nodupT_cons_rest hnd)

theorem subdirsEqual_agree : (t full : FsTree) →
    (∀ m, m ∈ namesT t → lookupT full m = lookupT t m) → nodupT t = true →
    subdirsEqual t full = true
  | .nil, _, _, _ => rfl
  | .cons n (FsEntry.file c) rest, full, hagree, hnd => by
    simp only [subdirsEqual]
    exact subdirsEqual_agree rest full (agree_tail hagree (nodupT_cons_notin hnd))
      (nodupT_cons_rest hnd)
  | .cons n (FsEntry.dir cs) rest, full, hagree, hnd => by
    have h1 : lookupT full n = some (FsEntry.dir cs) := by
      rw [hagree n (by simp [namesT])]
      simp [lookupT]
    have hcs : nodupT cs = true := nodupT_dir_children hnd
    have hbase : baseEq cs cs = true := by
      rw [baseEq]
      have hl : leftOnlyNames cs cs = [] :=
        leftOnlyNames_nil cs cs (fun m hm => lookupT_isSome_of_mem cs m hm)
      have hmm : mismatchNames cs cs = [] := mismatchNames_agree cs cs (fun _ _ => rfl) hcs
      simp [hl, hmm]
    have hsub : subdirsEqual cs cs = true := subdirsEqual_agree cs cs (fun _ _ => rfl) hcs
    simp only [subdirsEqual, h1, hbase, hsub, Bool.true_and]
    exact subdirsEqual_agree rest full (agree_tail hagree (nodupT_cons_notin hnd))
      (nodupT_cons_rest hnd)

theorem areDirTreesEqual_refl (t : FsTree) (hnd : nodupT t = true) :
    areDirTreesEqual t t = true := by
  rw [areDirTreesEqual]
  have hl : leftOnlyNames t t = [] :=
    leftOnlyNames_nil t t (fun m hm => lookupT_isSome_of_mem t m hm)
  have hmm : mismatchNames t t = [] := mismatchNames_agree t t (fun _ _ => rfl) hnd
  have hs : subdirsEqual t t = true := subdirsEqual_agree t t (fun _ _ => rfl) hnd
  simp [baseEq, hl, hmm, hs]

end Wit

namespace Wit

/-! ### Claim theorems -/

/-- C1, counterexample.  On the chain `s → c → r` with `head_id = c` and
`source_id = s`, the source history is `[s, c, r]` and the head history `[c, r]`;
the first source-order identifier appearing in the head history is `c`, but the
merge-base scan of `wit.merge` (which never breaks out of its loop) returns `r`.
So the search does not return the FIRST such identifier. -/
theorem merge_base_first_match_refuted :
    collectHistoryF chainParents 3 "s" = some ["s", "c", "r"]
    ∧ collectHistoryF chainParents 3 "c" = some ["c", "r"]
    ∧ mergeBaseSearch chainParents 3 "s" "c" = some (some "r")
    ∧ specFirstCommon ["s", "c", "r"] ["c", "r"] = some "c"
    ∧ ("r" : String) ≠ "c" :=
  ⟨rfl, rfl, rfl, rfl, by decide⟩

/-- C1, amended.  For every pair of commit identifiers whose collected histories
share at least one identifier, the merge-base search computes both histories and
returns the LAST identifier in source traversal order that also appears anywhere
in the head history (the loop has no `break`, so later matches overwrite earlier
ones); in particular some common identifier is returned. -/
theorem merge_base_returns_last_common :
    ∀ (parents : String → List String) (fuel : Nat) (srcId headId : String)
      (srcC headC : List String),
      collectHistoryF parents fuel srcId = some srcC →
      collectHistoryF parents fuel headId = some headC →
      (∃ cid, cid ∈ srcC ∧ cid ∈ headC) →
      mergeBaseSearch parents fuel srcId headId
          = some (srcC.reverse.find? (fun cid => headC.contains cid))
        ∧ ∃ base, srcC.reverse.find? (fun cid => headC.contains cid) = some base := by
  intro parents fuel srcId headId srcC headC hsrc hhead hcommon
  constructor
  · simp [mergeBaseSearch, hsrc, hhead, findCommonCommit_eq_last]
  · obtain ⟨cid, hmem, hmemh⟩ := hcommon
    have hssome : (srcC.reverse.find? (fun cid => headC.contains cid)).isSome := by
      rw [List.find?_isSome]
      exact ⟨cid, by simpa using hmem, by simpa using hmemh⟩
    exact Option.isSome_iff_exists.mp hssome

/-- Witness for C1's amended theorem at the chain history. -/
theorem merge_base_returns_last_common_check :
    mergeBaseSearch chainParents 3 "s" "c"
        = some (["s", "c", "r"].reverse.find? (fun cid => List.contains ["c", "r"] cid))
      ∧ ∃ base, ["s", "c", "r"].reverse.find? (fun cid => List.contains ["c", "r"] cid)
        = some base :=
  merge_base_returns_last_common chainParents 3 "s" "c" ["s", "c", "r"] ["c", "r"]
    (by rfl) (by rfl) ⟨"c", by decide, by decide⟩

/-- C2 (a bug in the code).  In `c2State` the working tree's `foo.txt` is
untracked (reported by status as `/p/foo.txt`, the only untracked path) and holds
`untracked`; checking out branch `feature` over this clean repository completes
without error, yet it OVERWRITES `foo.txt` with the committed content: the ignore
list holds absolute paths while `execute_checkout` compares bare entry names, so
no path is ever skipped, contradicting the claim (and the code's own comment)
that untracked working-tree content is never overwritten. -/
theorem checkout_overwrites_untracked_file :
    statusOp c2State = some ([], [], [pjoin "/p" "foo.txt"])
    ∧ lookupT c2State.working "foo.txt" = some (FsEntry.file "untracked")
    ∧ (checkoutOp c2State "feature").2 = .ok ()
    ∧ lookupT (checkoutOp c2State "feature").1.working "foo.txt"
        = some (FsEntry.file "committed")
    ∧ "committed" ≠ "untracked" :=
  ⟨rfl, rfl, rfl, rfl, by decide⟩

/-- C3.  Whenever the per-file three-way path `merge_common_changes` is invoked on
files whose common-ancestor line and both sides' lines at some in-range index are
pairwise distinct, it raises the `MergeConflict` `ValueError` before writing any
output: the file store (hence the staging area) is returned exactly unchanged,
and since no caller in the repository handles `ValueError`, the raised error
propagates and no commit is ever created afterwards. -/
theorem merge_conflict_aborts_without_write :
    ∀ (fs : FileMap) (commonP branchP headP dstP : String)
      (cc bc hc : String) (i : Nat),
      readFileM fs commonP = some cc → readFileM fs branchP = some bc →
      readFileM fs headP = some hc →
      i < (splitlines cc).length → i < (splitlines bc).length →
      i < (splitlines hc).length →
      (splitlines cc)[i]? ≠ (splitlines hc)[i]? →
      (splitlines cc)[i]? ≠ (splitlines bc)[i]? →
      (splitlines bc)[i]? ≠ (splitlines hc)[i]? →
      mergeCommonChanges fs commonP branchP headP dstP = (fs, .error .conflict) := by
  intro fs commonP branchP headP dstP cc bc hc i h1 h2 h3 hi1 hi2 hi3 d1 d2 d3
  have hml := mergeLines_conflict (splitlines cc) (splitlines bc) (splitlines hc) i
    hi1 hi2 hi3 d1 d2
  simp [mergeCommonChanges, h1, h2, h3, hml]

/-- Witness for C3: one-line files `x`, `y`, `z`, pairwise distinct at index 0. -/
theorem merge_conflict_aborts_without_write_check :
    mergeCommonChanges [("base", "x"), ("br", "y"), ("hd", "z")] "base" "br" "hd" "out"
      = ([("base", "x"), ("br", "y"), ("hd", "z")], .error .conflict) :=
  merge_conflict_aborts_without_write [("base", "x"), ("br", "y"), ("hd", "z")]
    "base" "br" "hd" "out" "x" "y" "z" 0
    (by rfl) (by rfl) (by rfl) (by decide) (by decide) (by decide)
    (by decide) (by decide) (by decide)

/-- C4, counterexample.  The claim quantifies over EVERY triple of line lists, but
on the triple `([], [a], [b])` — both edited versions have a line at index 0 and
the ancestor does not — the function neither produces merged output nor the
`MergeConflict`: it raises the unhandled `IndexError` (see C10). -/
theorem positional_merge_claim_refuted :
    mergeLines [] ["a"] ["b"] = .error .indexErr
    ∧ MergeErr.indexErr ≠ MergeErr.conflict
    ∧ (mergeLines [] ["a"] ["b"]).isOk = false :=
  ⟨rfl, by decide, rfl⟩

/-- C4, amended.  For every triple whose common ancestor has a line at every index
where both edited versions do (`min` of their lengths bounded by the ancestor
length — otherwise an `IndexError` escapes, see C10), the per-file three-way merge
behaves exactly as claimed for line index `i` from 0 up to the longer of the two
edited versions' line counts: if some such index has the ancestor line differing
from both sides, it fails with `MergeConflict` and returns no output; otherwise it
produces one output line per index — the other side's line when one side has no
line at `i`, the branch line when the ancestor's line equals the head line but
differs from the branch line, and otherwise the head line (`specLine`). -/
theorem positional_merge_per_index (common branch head : List String)
    (hlen : min branch.length head.length ≤ common.length) :
    ((∃ i, i < branch.length ∧ i < head.length ∧
        common[i]? ≠ head[i]? ∧ common[i]? ≠ branch[i]?) →
      mergeLines common branch head = .error .conflict)
    ∧ ((∀ i, i < branch.length → i < head.length →
        common[i]? = head[i]? ∨ common[i]? = branch[i]?) →
      ∃ out, mergeLines common branch head = .ok out ∧
        out.length = max branch.length head.length ∧
        ∀ i, i < max branch.length head.length →
          out[i]? = some (specLine common branch head i)) := by
  constructor
  · rintro ⟨i, hib, hih, hch, hcb⟩
    have hic : i < common.length := lt_of_lt_of_le (lt_min hib hih) hlen
    exact mergeLines_conflict common branch head i hic hib hih hch hcb
  · intro hnc
    exact mergeLines_ok common branch head hlen hnc

/-- Witness for C4's amended theorem: the conflict-free triple
`(["x"], ["y"], ["x", "z"])` merges to `["y", "z"]`, and the pairwise-distinct
triple `(["x"], ["y"], ["w"])` conflicts. -/
theorem positional_merge_per_index_check :
    (min 1 2 ≤ 1 ∧ mergeLines ["x"] ["y"] ["x", "z"] = .ok ["y", "z"])
    ∧ (min 1 1 ≤ 1 ∧ mergeLines ["x"] ["y"] ["w"] = .error .conflict) := by
  constructor
  · refine ⟨by decide, ?_⟩
    have hside : ∀ i, i < (["y"] : List String).length →
        i < (["x", "z"] : List String).length →
        (["x"] : List String)[i]? = (["x", "z"] : List String)[i]?
          ∨ (["x"] : List String)[i]? = (["y"] : List String)[i]? := by
      intro i h1 h2
      have h1b : i < 1 := by simpa using h1
      have hz : i = 0 := by omega
      subst hz
      left; rfl
    obtain ⟨out, hout, hlenout, hidx⟩ :=
      (positional_merge_per_index ["x"] ["y"] ["x", "z"] (by decide)).2 hside
    have h0 := hidx 0 (by decide)
    have h1 := hidx 1 (by decide)
    have hl : out.length = 2 := by simpa using hlenout
    match out, hl with
    | [o1, o2], _ =>
      simp only [List.getElem?_cons_zero, List.getElem?_cons_succ, Option.some.injEq] at h0 h1
      rw [hout, h0, h1]
      rfl
  · refine ⟨by decide, ?_⟩
    exact (positional_merge_per_index ["x"] ["y"] ["w"] (by decide)).1
      ⟨0, by decide, by decide, by decide, by decide⟩

/-- C5.  First part: with a references file whose line 0 maps to a head snapshot
identical to the staging area, `commit` is a no-op — it reports "no changes"
(`.ok none`), allocates no identifier, and leaves the whole repository state
untouched.  Second part: after any successful commit of a fresh identifier, an
immediately following commit with no intervening `add` is such a no-op, so two
commits in a row create exactly one commit. -/
theorem commit_nochange_idempotent :
    (∀ (s : RepoState) (rs : List (String × String)) (n0 hid : String) (t : FsTree)
        (freshId msg : String) (sp : Option String),
      s.refs = some ((n0, hid) :: rs) →
      lookupImage s.images hid = some t →
      t = s.staging → nodupT s.staging = true →
      commitOp s freshId msg sp = (s, .ok none))
    ∧ (∀ (s s1 : RepoState) (id1 id2 m1 m2 : String),
      (s.refs = none ∨ ∃ hid rest, s.refs = some (("HEAD", hid) :: rest)) →
      id1 ∉ s.images.map (fun p => p.1) →
      nodupT s.staging = true →
      commitOp s id1 m1 none = (s1, .ok (some id1)) →
      commitOp s1 id2 m2 none = (s1, .ok none)) := by
  constructor
  · intro s rs n0 hid t freshId msg sp h1 h2 h3 h4
    subst h3
    simp [commitOp, h1, headCommitId, h2, areDirTreesEqual_refl s.staging h4]
  · intro s s1 id1 id2 m1 m2 hwf hfresh hnd hcommit
    rcases hwf with hnone | ⟨hid, rest, hsome⟩
    · have hs1 : ({ s with
            images := s.images ++ [(id1, s.staging)],
            metas := s.metas ++ [(id1, [])],
            refs := some [("HEAD", id1), ("master", id1)] } : RepoState) = s1 := by
        have hfst := congrArg Prod.fst hcommit
        simpa [commitOp, hnone] using hfst
      subst hs1
      simp [commitOp, headCommitId,
        lookupImage_append_fresh s.images id1 s.staging hfresh,
        areDirTreesEqual_refl s.staging hnd]
    · cases himg : lookupImage s.images hid with
      | none =>
        simp [commitOp, hsome, headCommitId, himg] at hcommit
      | some headTree =>
        cases hguard : areDirTreesEqual headTree s.staging with
        | true =>
          simp [commitOp, hsome, headCommitId, himg, hguard] at hcommit
        | false =>
          have hs1 : ({ s with
                images := s.images ++ [(id1, s.staging)],
                metas := s.metas ++ [(id1, [hid])],
                refs := some (updateReferences (("HEAD", hid) :: rest) id1 s.activated) }
                  : RepoState) = s1 := by
            have hfst := congrArg Prod.fst hcommit
            simpa [commitOp, hsome, headCommitId, himg, hguard] using hfst
          subst hs1
          simp [commitOp, headCommitId_updateReferences hid rest id1 s.activated,
            lookupImage_append_fresh s.images id1 s.staging hfresh,
            areDirTreesEqual_refl s.staging hnd]

/-- Witness for C5: on `cleanState` commit is a no-op, and after the successful
commit out of `dirtyState` (reaching `dirtyCommittedState`) a second commit is a
no-op. -/
theorem commit_nochange_idempotent_check :
    commitOp cleanState "f1" "m" none = (cleanState, .ok none)
    ∧ commitOp dirtyCommittedState "g2" "m2" none = (dirtyCommittedState, .ok none) :=
  ⟨commit_nochange_idempotent.1 cleanState [("master", "c1")] "HEAD" "c1" treeA
      "f1" "m" none rfl rfl rfl rfl,
   commit_nochange_idempotent.2 dirtyState dirtyCommittedState "g1" "g2" "m1" "m2"
     (Or.inr ⟨"c1", [("master", "c1")], rfl⟩) (by decide) rfl rfl⟩

/-- C6.  The history walk appends the current commit and then recurses into each
parent in order — `[c]` at a root, `c :: h₁` for one parent, `c :: (h₁ ++ h₂)` for
two parents — with no deduplication of already-visited commits: in the diamond
history the shared root `r` appears twice in the output. -/
theorem collect_history_walk_order :
    (∀ (parents : String → List String) (fuel : Nat) (c : String), parents c = [] →
        collectHistoryF parents (fuel + 1) c = some [c])
    ∧ (∀ (parents : String → List String) (fuel : Nat) (c p : String) (hp : List String),
        parents c = [p] →
        collectHistoryF parents fuel p = some hp →
        collectHistoryF parents (fuel + 1) c = some (c :: hp))
    ∧ (∀ (parents : String → List String) (fuel : Nat) (c p1 p2 : String)
        (h1 h2 : List String), parents c = [p1, p2] →
        collectHistoryF parents fuel p1 = some h1 →
        collectHistoryF parents fuel p2 = some h2 →
        collectHistoryF parents (fuel + 1) c = some (c :: (h1 ++ h2)))
    ∧ (collectHistoryF diamondParents 3 "m" = some ["m", "a", "r", "b", "r"]
        ∧ List.count "r" ["m", "a", "r", "b", "r"] = 2) := by
  refine ⟨?_, ?_, ?_, by rfl, by rfl⟩
  · intro parents fuel c hc
    simp [collectHistoryF, hc]
  · intro parents fuel c p hp hc hcp
    simp [collectHistoryF, hc, hcp]
  · intro parents fuel c p1 p2 h1 h2 hc hp1 hp2
    simp [collectHistoryF, hc, hp1, hp2]

/-- Witness for C6's quantified parts on the diamond history. -/
theorem collect_history_walk_order_check :
    collectHistoryF diamondParents 1 "r" = some ["r"]
    ∧ collectHistoryF diamondParents 2 "a" = some ["a", "r"]
    ∧ collectHistoryF diamondParents 3 "m" = some ("m" :: (["a", "r"] ++ ["b", "r"])) :=
  ⟨collect_history_walk_order.1 diamondParents 0 "r" rfl,
   collect_history_walk_order.2.1 diamondParents 1 "a" "r" ["r"] rfl rfl,
   collect_history_walk_order.2.2.1 diamondParents 2 "m" "a" "b" ["a", "r"] ["b", "r"]
     rfl rfl rfl⟩

/-- C7.  On every parent graph that is acyclic (witnessed by a rank decreasing
along parent edges — every finite commit graph the tool can create is of this
form), the history walk and the merge-base search terminate with a result once
given fuel beyond the rank: the Python recursion performs exactly these finitely
many calls. -/
theorem ancestor_search_terminates :
    ∀ (parents : String → List String) (rank : String → Nat), AcyclicRank parents rank →
      (∀ c fuel, rank c < fuel → ∃ l, collectHistoryF parents fuel c = some l)
      ∧ (∀ srcId headId fuel, rank srcId < fuel → rank headId < fuel →
          ∃ res, mergeBaseSearch parents fuel srcId headId = some res) := by
  intro parents rank hA
  constructor
  · intro c fuel hc
    exact collectHistory_total parents rank hA fuel c hc
  · intro srcId headId fuel hs hh
    obtain ⟨l1, hl1⟩ := collectHistory_total parents rank hA fuel srcId hs
    obtain ⟨l2, hl2⟩ := collectHistory_total parents rank hA fuel headId hh
    exact ⟨findCommonCommit l1 l2, by simp [mergeBaseSearch, hl1, hl2]⟩

/-- Witness for C7 on the crafted diamond history. -/
theorem ancestor_search_terminates_check :
    (∃ l, collectHistoryF diamondParents 3 "m" = some l)
    ∧ (∃ res, mergeBaseSearch diamondParents 3 "a" "b" = some res) :=
  ⟨(ancestor_search_terminates diamondParents diamondRank diamondParents_acyclic).1
      "m" 3 (by decide),
   (ancestor_search_terminates diamondParents diamondRank diamondParents_acyclic).2
      "a" "b" 3 (by decide) (by decide)⟩

/-- C8.  With at least one commit, status computes exactly the triple
`staged_changes = diff_presence(HEAD snapshot, staging)` (presence-mode
`get_dirs_diffs` under the staging path), `unstaged_changes =
diff_content(staging, working tree)` and `untracked_files = diff_presence(staging,
working tree)` (under the home path); with no references file it reports the
no-commit state (`none`) instead of computing any diff. -/
theorem status_computes_three_diffs :
    (∀ (s : RepoState) (rs : List (String × String)) (hid : String) (headTree : FsTree),
      s.refs = some rs → headCommitId rs = some hid →
      lookupImage s.images hid = some headTree →
      statusOp s = some (getDirsDiffs headTree s.staging (stagingPath s) false,
                         getDirsDiffs s.staging s.working s.homeDir true,
                         getDirsDiffs s.staging s.working s.homeDir false))
    ∧ (∀ s : RepoState, s.refs = none → statusOp s = none) := by
  constructor
  · intro s rs hid headTree h1 h2 h3
    simp [statusOp, h1, h2, h3]
  · intro s h1
    simp [statusOp, h1]

/-- Witness for C8 on `c2State` and the empty repository. -/
theorem status_computes_three_diffs_check :
    statusOp c2State = some (getDirsDiffs treeA c2State.staging (stagingPath c2State) false,
        getDirsDiffs c2State.staging c2State.working c2State.homeDir true,
        getDirsDiffs c2State.staging c2State.working c2State.homeDir false)
      ∧ statusOp initState = none :=
  ⟨status_computes_three_diffs.1 c2State
      [("HEAD", "c1"), ("master", "c1"), ("feature", "c2")] "c1" treeA rfl rfl rfl,
   status_computes_three_diffs.2 initState rfl⟩

/-- C9.  Creating a branch whose name matches any existing reference line fails
("branch name already in use") and leaves the reference file unchanged; otherwise
it appends `name=<HEAD commit id>` after the existing lines, reordering and
dropping nothing. -/
theorem branch_create_appends_or_fails :
    ∀ (s : RepoState) (rs : List (String × String)) (hid name : String),
      s.refs = some rs → rs.head? = some ("HEAD", hid) →
      ((name ∈ rs.map (fun p => p.1) →
          branchOp s name = (s, .error "branch name already in use"))
        ∧ (name ∉ rs.map (fun p => p.1) →
          branchOp s name = ({ s with refs := some (rs ++ [(name, hid)]) }, .ok ()))) := by
  intro s rs hid name h1 h2
  constructor
  · intro hmem
    simp [branchOp, h1, h2, hmem]
  · intro hmem
    simp [branchOp, h1, h2, hmem]

/-- Witness for C9 on the one-commit repository. -/
theorem branch_create_appends_or_fails_check :
    branchOp cleanState "master" = (cleanState, .error "branch name already in use")
    ∧ branchOp cleanState "feature"
        = ({ cleanState with
              refs := some [("HEAD", "c1"), ("master", "c1"), ("feature", "c1")] }, .ok ()) :=
  ⟨(branch_create_appends_or_fails cleanState [("HEAD", "c1"), ("master", "c1")]
      "c1" "master" rfl rfl).1 (by decide),
   (branch_create_appends_or_fails cleanState [("HEAD", "c1"), ("master", "c1")]
      "c1" "feature" rfl rfl).2 (by decide)⟩

/-- C10.  The per-file three-way merge is not total: whenever both edited versions
have a line at an index where the common ancestor has none (here index 0, with an
empty ancestor), reading the ancestor's line raises the unhandled `IndexError` —
distinct from the `MergeConflict` error and producing no merged output — and at
file level the operation aborts with the store untouched. -/
theorem merge_lines_unhandled_index_error :
    (∀ (b h : String) (bs hs : List String),
        mergeLines [] (b :: bs) (h :: hs) = .error .indexErr)
    ∧ MergeErr.indexErr ≠ MergeErr.conflict
    ∧ mergeCommonChanges [("base", ""), ("br", "line1"), ("hd", "line1")]
        "base" "br" "hd" "out"
        = ([("base", ""), ("br", "line1"), ("hd", "line1")], .error .indexErr) := by
  refine ⟨?_, by decide, by rfl⟩
  intro b h bs hs
  rfl

end Wit
